import Mathlib

/-!
# Verification of the CRF operator (`CRF.ipynb`)

Shallow embedding of the linear-chain CRF operator from the repository:

* `score_real_path`  embeds `CRF._score_real_path` (scoring one labelled path);
* `viterbi_decode`   embeds `CRF._viterbi_decode` (max/argmax decoding with
  backpointers, `torch.max` tie-break = first maximal index);
* `score_all_paths`  embeds `CRF._score_all_paths` (forward algorithm, naive
  `log (sum (exp ...))` exactly as in the source);
* `forward`          embeds `CRF.forward` with `batch_valid_lens` (per-sequence
  trimming `emission[:valid_lens[i], :]`, Python slices clamp);
* `loss_nll_crf`     embeds `CRF.loss_nll_crf`.

Machine floats are modelled as exact numbers: the order/addition parts are
polymorphic over a linearly ordered additive commutative group (instantiated
at `ℤ` for executable witnesses and at `ℝ` where `exp`/`log` are needed).  Fallible tensor indexing
(`IndexError` on out-of-range, silent wrap-around on negative indices) is
modelled by `pyIndex` returning `Option`.  A computation that raises in Python
is modelled as `none`.

The tag dimension is `Fin (T+1)` (the object is constructed with a positive
`tag_size`); an emission matrix with `L+1` rows is a function `ℕ → Fin (T+1) → α`
together with the explicit row count passed to each operation (rows beyond the
count are never read, which also models trimming a padded matrix).
-/

namespace CRF

variable {T : ℕ} {α : Type} [LinearOrderedAddCommGroup α]

/-- Python / PyTorch indexing into a dimension of size `n`: a nonnegative index
must be `< n`, a negative index `z` with `-n ≤ z` silently wraps to `n + z`,
anything else raises `IndexError` (modelled as `none`). -/
def pyIndex (n : ℕ) (z : ℤ) : Option (Fin n) :=
  if h : 0 ≤ z ∧ z < (n : ℤ) then some ⟨z.toNat, by omega⟩
  else if h2 : -(n : ℤ) ≤ z ∧ z < 0 then some ⟨(z + n).toNat, by omega⟩
  else none

/-- Total wrap-around semantics of an in-range Python index for dimension
`T+1`: the representative of `z` modulo `T+1`. -/
def wrapIdx (T : ℕ) (z : ℤ) : Fin (T + 1) :=
  ⟨(z % ((T : ℤ) + 1)).toNat, by
    have h1 : 0 ≤ z % ((T : ℤ) + 1) := Int.emod_nonneg z (by omega)
    have h2 : z % ((T : ℤ) + 1) < (T : ℤ) + 1 := Int.emod_lt_of_pos z (by omega)
    omega⟩

lemma pyIndex_eq_wrap (T : ℕ) (z : ℤ) (h1 : -((T : ℤ) + 1) ≤ z) (h2 : z < (T : ℤ) + 1) :
    pyIndex (T + 1) z = some (wrapIdx T z) := by
  rcases le_or_lt 0 z with hz | hz
  · have hp : 0 ≤ z ∧ z < ((T + 1 : ℕ) : ℤ) := ⟨hz, by push_cast; omega⟩
    have hm : z % ((T : ℤ) + 1) = z := Int.emod_eq_of_lt hz (by omega)
    rw [pyIndex, dif_pos hp]
    simp only [wrapIdx, Option.some.injEq]
    apply Fin.ext
    simp [hm]
  · have hp : ¬(0 ≤ z ∧ z < ((T + 1 : ℕ) : ℤ)) := by push_cast; omega
    have hq : -((T + 1 : ℕ) : ℤ) ≤ z ∧ z < 0 := ⟨by push_cast; omega, hz⟩
    have hm : z % ((T : ℤ) + 1) = z + ((T : ℤ) + 1) := by
      rw [Int.emod_eq_add_self_emod]
      exact Int.emod_eq_of_lt (by omega) (by omega)
    rw [pyIndex, dif_neg hp, dif_pos hq]
    simp only [wrapIdx, Option.some.injEq]
    apply Fin.ext
    simp only [hm]
    push_cast
    omega

lemma pyIndex_coe (T : ℕ) (j : Fin (T + 1)) :
    pyIndex (T + 1) ((j : ℕ) : ℤ) = some j := by
  have hp : 0 ≤ ((j : ℕ) : ℤ) ∧ ((j : ℕ) : ℤ) < ((T + 1 : ℕ) : ℤ) :=
    ⟨Int.natCast_nonneg _, by exact_mod_cast j.isLt⟩
  rw [pyIndex, dif_pos hp]
  simp only [Option.some.injEq]
  apply Fin.ext
  simp

lemma wrapIdx_neg_one (T : ℕ) : wrapIdx T (-1) = ⟨T, Nat.lt_succ_self T⟩ := by
  have hm : (-1 : ℤ) % ((T : ℤ) + 1) = (T : ℤ) := by
    rw [Int.emod_eq_add_self_emod]
    have h : (-1 : ℤ) + ((T : ℤ) + 1) = (T : ℤ) := by ring
    rw [h]
    exact Int.emod_eq_of_lt (by omega) (by omega)
  simp only [wrapIdx, Fin.mk.injEq]
  rw [hm]
  omega

/-- Accumulation loop of `CRF._score_real_path`:
`for i, cur_emission in enumerate(emission[1:], start=1):
   score = score + cur_emission[tags[i]] + self.transition[tags[i-1], tags[i]]`.
`i` is the current row, `r` the number of rows still to process, `prev` the
(already fetched) tensor index of `tags[i-1]`, `acc` the running score. -/
def scoreRealAux (t : Fin (T + 1) → Fin (T + 1) → α) (e : ℕ → Fin (T + 1) → α)
    (tags : List ℤ) : ℕ → ℕ → Fin (T + 1) → α → Option α
  | _, 0, _, acc => some acc
  | i, r + 1, prev, acc =>
    match tags[i]? with
    | none => none
    | some z =>
      match pyIndex (T + 1) z with
      | none => none
      | some j => scoreRealAux t e tags (i + 1) r j (acc + e i j + t prev j)

/-- Embedding of `CRF._score_real_path(emission, tags)` for an emission matrix
with `L` rows.  `score = emission[0, tags[0]]` followed by the loop above; with
`L = 0` the initial read `emission[0, tags[0]]` raises (`none`), as does a
missing or out-of-range `tags[i]`. -/
def score_real_path (t : Fin (T + 1) → Fin (T + 1) → α) (L : ℕ)
    (e : ℕ → Fin (T + 1) → α) (tags : List ℤ) : Option α :=
  match L with
  | 0 => none
  | L' + 1 =>
    match tags[0]? with
    | none => none
    | some z =>
      match pyIndex (T + 1) z with
      | none => none
      | some j0 => scoreRealAux t e tags 1 L' j0 (e 0 j0)

/-- Score of the tag path `p` over rows `0..i` of the emission matrix:
`e 0 (p 0) + Σ_{m=1..i} (e m (p m) + t (p (m-1)) (p m))`, written as the
recurrence the loop computes. -/
def pathScoreUpTo (t : Fin (T + 1) → Fin (T + 1) → α) (e : ℕ → Fin (T + 1) → α)
    (p : ℕ → Fin (T + 1)) : ℕ → α
  | 0 => e 0 (p 0)
  | i + 1 => pathScoreUpTo t e p i + e (i + 1) (p (i + 1)) + t (p i) (p (i + 1))

lemma pathScoreUpTo_congr (t : Fin (T + 1) → Fin (T + 1) → α)
    (e : ℕ → Fin (T + 1) → α) (p q : ℕ → Fin (T + 1)) :
    ∀ i : ℕ, (∀ m, m ≤ i → p m = q m) →
      pathScoreUpTo t e p i = pathScoreUpTo t e q i := by
  intro i
  induction i with
  | zero =>
    intro h
    simp [pathScoreUpTo, h 0 (le_refl 0)]
  | succ i ih =>
    intro h
    simp only [pathScoreUpTo]
    rw [ih (fun m hm => h m (Nat.le_succ_of_le hm)),
      h i (Nat.le_succ i), h (i + 1) (le_refl (i + 1))]

lemma pathScoreUpTo_eq_sum (t : Fin (T + 1) → Fin (T + 1) → α)
    (e : ℕ → Fin (T + 1) → α) (p : ℕ → Fin (T + 1)) :
    ∀ L : ℕ, pathScoreUpTo t e p L =
      e 0 (p 0) + ∑ i ∈ Finset.range L, (e (i + 1) (p (i + 1)) + t (p i) (p (i + 1))) := by
  intro L
  induction L with
  | zero => simp [pathScoreUpTo]
  | succ L ih =>
    rw [Finset.sum_range_succ]
    simp only [pathScoreUpTo]
    rw [ih]
    abel

lemma scoreRealAux_valid (t : Fin (T + 1) → Fin (T + 1) → α) (e : ℕ → Fin (T + 1) → α)
    (tags : List ℤ) (p : ℕ → Fin (T + 1)) :
    ∀ (r i : ℕ), 1 ≤ i →
      (∀ m, m < r → ∃ z, tags[i + m]? = some z ∧ pyIndex (T + 1) z = some (p (i + m))) →
      scoreRealAux t e tags i r (p (i - 1)) (pathScoreUpTo t e p (i - 1)) =
        some (pathScoreUpTo t e p (i - 1 + r)) := by
  intro r
  induction r with
  | zero =>
    intro i hi h
    simp [scoreRealAux]
  | succ r ih =>
    intro i hi h
    obtain ⟨z, hz, hpy⟩ := h 0 (Nat.succ_pos r)
    simp only [Nat.add_zero] at hz hpy
    rw [scoreRealAux, hz]
    dsimp only
    rw [hpy]
    dsimp only
    obtain ⟨i', rfl⟩ : ∃ i', i = i' + 1 := ⟨i - 1, by omega⟩
    have hstep : pathScoreUpTo t e p (i' + 1 - 1) + e (i' + 1) (p (i' + 1)) +
        t (p (i' + 1 - 1)) (p (i' + 1)) = pathScoreUpTo t e p (i' + 1) := by
      simp [pathScoreUpTo]
    rw [hstep]
    have h2 : ∀ m, m < r →
        ∃ z, tags[i' + 1 + 1 + m]? = some z ∧ pyIndex (T + 1) z = some (p (i' + 1 + 1 + m)) := by
      intro m hm
      have := h (m + 1) (by omega)
      have harith : i' + 1 + (m + 1) = i' + 1 + 1 + m := by omega
      rwa [harith] at this
    have hfin : i' + 1 - 1 + (r + 1) = i' + 1 + r := by omega
    rw [hfin]
    have := ih (i' + 1 + 1) (by omega) h2
    have harith1 : i' + 1 + 1 - 1 = i' + 1 := by omega
    rw [harith1] at this
    exact this

/-- If every position `0..L` of `tags` holds an in-range tensor index resolving
to `p`, then `_score_real_path` on an `(L+1)`-row emission matrix returns the
path score of `p`. -/
lemma score_real_path_valid (t : Fin (T + 1) → Fin (T + 1) → α) (e : ℕ → Fin (T + 1) → α)
    (tags : List ℤ) (p : ℕ → Fin (T + 1)) (L : ℕ)
    (h : ∀ n, n ≤ L → ∃ z, tags[n]? = some z ∧ pyIndex (T + 1) z = some (p n)) :
    score_real_path t (L + 1) e tags = some (pathScoreUpTo t e p L) := by
  obtain ⟨z, hz, hpy⟩ := h 0 (Nat.zero_le L)
  rw [score_real_path, hz]
  dsimp only
  rw [hpy]
  dsimp only
  have h2 : ∀ m, m < L → ∃ z, tags[1 + m]? = some z ∧ pyIndex (T + 1) z = some (p (1 + m)) := by
    intro m hm
    exact h (1 + m) (by omega)
  have := scoreRealAux_valid t e tags p L 1 (le_refl 1) h2
  simpa [pathScoreUpTo] using this

/-- A fully in-range tag sequence, as the Python list of plain tag indices. -/
def encodeTags {L : ℕ} (p : Fin (L + 1) → Fin (T + 1)) : List ℤ :=
  List.ofFn fun i => ((p i : ℕ) : ℤ)

/-- Path score of a length-`(L+1)` tag assignment `p` (brute-force candidate). -/
def finPathScore (t : Fin (T + 1) → Fin (T + 1) → α) (e : ℕ → Fin (T + 1) → α)
    (L : ℕ) (p : Fin (L + 1) → Fin (T + 1)) : α :=
  pathScoreUpTo t e (fun n => p ⟨min n L, Nat.lt_succ_of_le (Nat.min_le_right n L)⟩) L

lemma score_real_path_encode (t : Fin (T + 1) → Fin (T + 1) → α)
    (e : ℕ → Fin (T + 1) → α) (L : ℕ) (p : Fin (L + 1) → Fin (T + 1)) :
    score_real_path t (L + 1) e (encodeTags p) = some (finPathScore t e L p) := by
  apply score_real_path_valid
  intro n hn
  refine ⟨((p ⟨min n L, Nat.lt_succ_of_le (Nat.min_le_right n L)⟩ : ℕ) : ℤ), ?_, ?_⟩
  · rw [encodeTags, List.getElem?_ofFn]
    have hlt : n < L + 1 := Nat.lt_succ_of_le hn
    simp only [List.ofFnNthVal, hlt, dif_pos, Option.some.injEq]
    congr 2
    exact Fin.ext (by simp [Nat.min_eq_left hn])
  · exact pyIndex_coe T _

lemma finPathScore_eq_sum (t : Fin (T + 1) → Fin (T + 1) → α)
    (e : ℕ → Fin (T + 1) → α) (L : ℕ) (p : Fin (L + 1) → Fin (T + 1)) :
    finPathScore t e L p =
      e 0 (p 0) + ∑ i : Fin L, (e ((i : ℕ) + 1) (p i.succ) + t (p i.castSucc) (p i.succ)) := by
  rw [finPathScore, pathScoreUpTo_eq_sum]
  congr 1
  · congr 1
    apply congrArg
    apply Fin.ext
    simp
  · rw [← Fin.sum_univ_eq_sum_range
      (fun n => e (n + 1) (p ⟨min (n + 1) L, Nat.lt_succ_of_le (Nat.min_le_right (n + 1) L)⟩) +
        t (p ⟨min n L, Nat.lt_succ_of_le (Nat.min_le_right n L)⟩)
          (p ⟨min (n + 1) L, Nat.lt_succ_of_le (Nat.min_le_right (n + 1) L)⟩)) L]
    apply Finset.sum_congr rfl
    intro i _
    have hs : (⟨min ((i : ℕ) + 1) L, Nat.lt_succ_of_le (Nat.min_le_right ((i : ℕ) + 1) L)⟩ :
        Fin (L + 1)) = i.succ := by
      apply Fin.ext
      simp [Nat.min_eq_left (Nat.succ_le_of_lt i.isLt)]
    have hc : (⟨min (i : ℕ) L, Nat.lt_succ_of_le (Nat.min_le_right (i : ℕ) L)⟩ :
        Fin (L + 1)) = i.castSucc := by
      apply Fin.ext
      simp [Nat.min_eq_left (le_of_lt i.isLt)]
    rw [hs, hc]

/-- Maximum entry of a score vector (`torch.max(..., dim).values`). -/
def vmax (f : Fin (T + 1) → α) : α :=
  Finset.univ.sup' Finset.univ_nonempty f

/-- Index returned by `torch.max(..., dim).indices`: the first (lowest) index
attaining the maximum. -/
def argmaxIdx (f : Fin (T + 1) → α) : Fin (T + 1) :=
  (Finset.univ.filter fun k => f k = vmax f).min' (by
    obtain ⟨b, _, hb⟩ := Finset.exists_mem_eq_sup' Finset.univ_nonempty f
    exact ⟨b, Finset.mem_filter.mpr ⟨Finset.mem_univ b, hb.symm⟩⟩)

lemma le_vmax (f : Fin (T + 1) → α) (k : Fin (T + 1)) : f k ≤ vmax f :=
  Finset.le_sup' f (Finset.mem_univ k)

lemma vmax_le (f : Fin (T + 1) → α) (a : α) (h : ∀ k, f k ≤ a) : vmax f ≤ a :=
  Finset.sup'_le _ f fun k _ => h k

lemma argmaxIdx_attains (f : Fin (T + 1) → α) : f (argmaxIdx f) = vmax f := by
  have h := Finset.min'_mem (Finset.univ.filter fun k => f k = vmax f)
    (by
      obtain ⟨b, _, hb⟩ := Finset.exists_mem_eq_sup' Finset.univ_nonempty f
      exact ⟨b, Finset.mem_filter.mpr ⟨Finset.mem_univ b, hb.symm⟩⟩)
  exact (Finset.mem_filter.mp h).2

lemma argmaxIdx_le (f : Fin (T + 1) → α) (k : Fin (T + 1)) (h : f k = vmax f) :
    argmaxIdx f ≤ k :=
  Finset.min'_le _ k (Finset.mem_filter.mpr ⟨Finset.mem_univ k, h⟩)

/-- The `best_scores` vector of `CRF._viterbi_decode` after processing rows
`0..i`:
`cur_score[k][j] = best_scores[k] + cur_emit[j] + transition[k][j]` followed by
`best_scores, previous_idx = torch.max(cur_score, dim=0)`. -/
def viterbiScores (t : Fin (T + 1) → Fin (T + 1) → α) (e : ℕ → Fin (T + 1) → α) :
    ℕ → Fin (T + 1) → α
  | 0 => e 0
  | i + 1 => fun j => vmax fun k => viterbiScores t e i k + e (i + 1) j + t k j

/-- The backpointer `previous[i+1][j]` recorded by `CRF._viterbi_decode`:
the argmax over the predecessor tag `k` (lowest index on ties). -/
def prevTag (t : Fin (T + 1) → Fin (T + 1) → α) (e : ℕ → Fin (T + 1) → α)
    (i : ℕ) (j : Fin (T + 1)) : Fin (T + 1) :=
  argmaxIdx fun k => viterbiScores t e i k + e (i + 1) j + t k j

/-- The backpointer walk of `CRF._viterbi_decode`
(`for i in range(previous.shape[0] - 1, 0, -1): best_idx = previous[i, best_idx]`):
starting from tag `idx` at position `i`, the list `[tag_i, tag_(i-1), ..., tag_0]`
(the code reverses it at the end). -/
def backWalk (t : Fin (T + 1) → Fin (T + 1) → α) (e : ℕ → Fin (T + 1) → α) :
    ℕ → Fin (T + 1) → List (Fin (T + 1))
  | 0, idx => [idx]
  | i + 1, idx => idx :: backWalk t e i (prevTag t e i idx)

/-- Embedding of `CRF._viterbi_decode(emission)` on an emission matrix with
`L+1` rows: `(best_score, best_path)` with
`best_score, best_idx = best_scores.max(dim=0)` and the backpointer walk
reversed into chronological order. -/
def viterbi_decode (t : Fin (T + 1) → Fin (T + 1) → α) (e : ℕ → Fin (T + 1) → α)
    (L : ℕ) : α × List (Fin (T + 1)) :=
  (vmax (viterbiScores t e L),
    (backWalk t e L (argmaxIdx (viterbiScores t e L))).reverse)

/-- The decoded tag at position `n`, walking backpointers from tag `idx` at
position `i` (functional form of `backWalk`). -/
def pathAt (t : Fin (T + 1) → Fin (T + 1) → α) (e : ℕ → Fin (T + 1) → α) :
    ℕ → Fin (T + 1) → ℕ → Fin (T + 1)
  | 0, idx, _ => idx
  | i + 1, idx, n => if n = i + 1 then idx else pathAt t e i (prevTag t e i idx) n

lemma pathAt_self (t : Fin (T + 1) → Fin (T + 1) → α) (e : ℕ → Fin (T + 1) → α)
    (i : ℕ) (idx : Fin (T + 1)) : pathAt t e i idx i = idx := by
  cases i with
  | zero => rfl
  | succ i => simp [pathAt]

/-- Any path's cumulative score is dominated by the Viterbi score at its
endpoint (soundness of the max recurrence). -/
lemma pathScore_le_viterbi (t : Fin (T + 1) → Fin (T + 1) → α)
    (e : ℕ → Fin (T + 1) → α) (p : ℕ → Fin (T + 1)) :
    ∀ i : ℕ, pathScoreUpTo t e p i ≤ viterbiScores t e i (p i) := by
  intro i
  induction i with
  | zero => exact le_of_eq rfl
  | succ i ih =>
    have h1 : pathScoreUpTo t e p (i + 1) ≤
        viterbiScores t e i (p i) + e (i + 1) (p (i + 1)) + t (p i) (p (i + 1)) := by
      simp only [pathScoreUpTo]
      have := add_le_add_right (add_le_add_right ih (e (i + 1) (p (i + 1)))) (t (p i) (p (i + 1)))
      exact this
    refine h1.trans ?_
    exact le_vmax (fun k => viterbiScores t e i k + e (i + 1) (p (i + 1)) + t k (p (i + 1))) (p i)

/-- The backpointer walk attains the Viterbi score (completeness of the
argmax bookkeeping). -/
lemma pathAt_attains (t : Fin (T + 1) → Fin (T + 1) → α) (e : ℕ → Fin (T + 1) → α) :
    ∀ (i : ℕ) (idx : Fin (T + 1)),
      pathScoreUpTo t e (pathAt t e i idx) i = viterbiScores t e i idx := by
  intro i
  induction i with
  | zero => intro idx; rfl
  | succ i ih =>
    intro idx
    have hcongr : pathScoreUpTo t e (pathAt t e (i + 1) idx) i =
        pathScoreUpTo t e (pathAt t e i (prevTag t e i idx)) i := by
      apply pathScoreUpTo_congr
      intro m hm
      have hne : m ≠ i + 1 := by omega
      simp [pathAt, hne]
    simp only [pathScoreUpTo]
    rw [hcongr, ih (prevTag t e i idx)]
    have hP1 : pathAt t e (i + 1) idx (i + 1) = idx := pathAt_self t e (i + 1) idx
    have hPi : pathAt t e (i + 1) idx i = prevTag t e i idx := by
      have hne : i ≠ i + 1 := by omega
      simp only [pathAt, hne, if_false]
      exact pathAt_self t e i (prevTag t e i idx)
    rw [hP1, hPi]
    have := argmaxIdx_attains fun k => viterbiScores t e i k + e (i + 1) idx + t k idx
    simpa [viterbiScores, prevTag] using this

lemma backWalk_eq_pathAt (t : Fin (T + 1) → Fin (T + 1) → α) (e : ℕ → Fin (T + 1) → α) :
    ∀ (i : ℕ) (idx : Fin (T + 1)),
      (backWalk t e i idx).reverse = (List.range (i + 1)).map (pathAt t e i idx) := by
  intro i
  induction i with
  | zero => intro idx; rfl
  | succ i ih =>
    intro idx
    have hrange : List.range (i + 1 + 1) = List.range (i + 1) ++ [i + 1] := List.range_succ (i + 1)
    rw [backWalk, List.reverse_cons, ih (prevTag t e i idx), hrange, List.map_append]
    congr 1
    · apply List.map_congr_left
      intro n hn
      have hn' : n < i + 1 := List.mem_range.mp hn
      have hne : n ≠ i + 1 := by omega
      simp [pathAt, hne]
    · simp [pathAt_self]

lemma backWalk_length (t : Fin (T + 1) → Fin (T + 1) → α) (e : ℕ → Fin (T + 1) → α) :
    ∀ (i : ℕ) (idx : Fin (T + 1)), (backWalk t e i idx).length = i + 1 := by
  intro i
  induction i with
  | zero => intro idx; rfl
  | succ i ih => intro idx; simp [backWalk, ih]

/-- Brute-force maximum of the `(T+1)^(L+1)` candidate path scores. -/
def bruteMax (t : Fin (T + 1) → Fin (T + 1) → α) (e : ℕ → Fin (T + 1) → α)
    (L : ℕ) : α :=
  Finset.univ.sup' Finset.univ_nonempty (finPathScore t e L)

lemma finPathScore_pathAt (t : Fin (T + 1) → Fin (T + 1) → α)
    (e : ℕ → Fin (T + 1) → α) (L : ℕ) (idx : Fin (T + 1)) :
    finPathScore t e L (fun i => pathAt t e L idx (i : ℕ)) =
      pathScoreUpTo t e (pathAt t e L idx) L := by
  rw [finPathScore]
  apply pathScoreUpTo_congr
  intro m hm
  simp [Nat.min_eq_left hm]

lemma viterbi_best_eq_bruteMax (t : Fin (T + 1) → Fin (T + 1) → α)
    (e : ℕ → Fin (T + 1) → α) (L : ℕ) :
    vmax (viterbiScores t e L) = bruteMax t e L := by
  apply le_antisymm
  · set idx := argmaxIdx (viterbiScores t e L) with hidx
    have h1 : vmax (viterbiScores t e L) = viterbiScores t e L idx :=
      (argmaxIdx_attains (viterbiScores t e L)).symm
    have h2 : viterbiScores t e L idx = pathScoreUpTo t e (pathAt t e L idx) L :=
      (pathAt_attains t e L idx).symm
    rw [h1, h2, ← finPathScore_pathAt]
    exact Finset.le_sup' (finPathScore t e L) (Finset.mem_univ _)
  · apply Finset.sup'_le
    intro p _
    have h1 : finPathScore t e L p ≤
        viterbiScores t e L
          ((fun n => p ⟨min n L, Nat.lt_succ_of_le (Nat.min_le_right n L)⟩) L) :=
      pathScore_le_viterbi t e _ L
    have h2 : (⟨min L L, Nat.lt_succ_of_le (Nat.min_le_right L L)⟩ : Fin (L + 1)) =
        (⟨L, Nat.lt_succ_self L⟩ : Fin (L + 1)) := Fin.ext (by simp)
    rw [finPathScore]
    refine h1.trans ?_
    exact le_vmax (viterbiScores t e L) _

/-- `best_path` as the Python list of plain integer tag indices. -/
def tagsToInt : List (Fin (T + 1)) → List ℤ :=
  List.map fun j => ((j : ℕ) : ℤ)

lemma viterbi_path_getElem (t : Fin (T + 1) → Fin (T + 1) → α)
    (e : ℕ → Fin (T + 1) → α) (L n : ℕ) (hn : n ≤ L) :
    ((viterbi_decode t e L).2)[n]? =
      some (pathAt t e L (argmaxIdx (viterbiScores t e L)) n) := by
  show ((backWalk t e L (argmaxIdx (viterbiScores t e L))).reverse)[n]? = _
  rw [backWalk_eq_pathAt, List.getElem?_map, List.getElem?_range (by omega)]
  rfl

/-- Claim C5: for every emission matrix with `L+1` rows and every in-range tag
sequence `p`, `_score_real_path` returns
`emission[0, p 0] + Σ_{i=1..L} (emission[i, p i] + transition[p (i-1), p i])`
with no transition term at position 0. -/
theorem crf_c5 (t : Fin (T + 1) → Fin (T + 1) → α) (e : ℕ → Fin (T + 1) → α)
    (L : ℕ) (p : Fin (L + 1) → Fin (T + 1)) :
    score_real_path t (L + 1) e (encodeTags p) =
      some (e 0 (p 0) +
        ∑ i : Fin L, (e ((i : ℕ) + 1) (p i.succ) + t (p i.castSucc) (p i.succ))) := by
  rw [score_real_path_encode, finPathScore_eq_sum]

/-- Claim C1: the Viterbi decoder's `best_score` is the maximum of the
`(T+1)^(L+1)` brute-force path scores, and the returned `best_path` is a
length-`(L+1)` tag sequence attaining it
(`score_real_path emission best_path = some best_score`). -/
theorem crf_c1 (t : Fin (T + 1) → Fin (T + 1) → α) (e : ℕ → Fin (T + 1) → α)
    (L : ℕ) :
    (viterbi_decode t e L).1 = bruteMax t e L ∧
    score_real_path t (L + 1) e (tagsToInt (viterbi_decode t e L).2) =
      some ((viterbi_decode t e L).1) ∧
    (viterbi_decode t e L).2.length = L + 1 := by
  refine ⟨viterbi_best_eq_bruteMax t e L, ?_, ?_⟩
  · have hval : score_real_path t (L + 1) e (tagsToInt (viterbi_decode t e L).2) =
        some (pathScoreUpTo t e (pathAt t e L (argmaxIdx (viterbiScores t e L))) L) := by
      apply score_real_path_valid
      intro n hn
      refine ⟨((pathAt t e L (argmaxIdx (viterbiScores t e L)) n : ℕ) : ℤ), ?_, pyIndex_coe T _⟩
      rw [tagsToInt, List.getElem?_map, viterbi_path_getElem t e L n hn]
      rfl
    rw [hval, pathAt_attains, argmaxIdx_attains (viterbiScores t e L)]
    rfl
  · show ((backWalk t e L (argmaxIdx (viterbiScores t e L))).reverse).length = L + 1
    rw [List.length_reverse, backWalk_length]

/-- Claim C9: decoding is deterministic — value-identical emission and
transition inputs give identical `(best_score, best_path)` — and every argmax
in the recurrence resolves ties by the fixed lowest-index rule. -/
theorem crf_c9 (t t' : Fin (T + 1) → Fin (T + 1) → α) (e e' : ℕ → Fin (T + 1) → α)
    (L : ℕ) (ht : ∀ k j, t k j = t' k j) (he : ∀ i j, e i j = e' i j) :
    viterbi_decode t e L = viterbi_decode t' e' L ∧
    (∀ f : Fin (T + 1) → α, f (argmaxIdx f) = vmax f ∧
      ∀ k, f k = vmax f → argmaxIdx f ≤ k) := by
  constructor
  · have ht' : t = t' := funext fun k => funext fun j => ht k j
    have he' : e = e' := funext fun i => funext fun j => he i j
    rw [ht', he']
  · intro f
    exact ⟨argmaxIdx_attains f, fun k hk => argmaxIdx_le f k hk⟩

lemma viterbi_decode_path_length (t : Fin (T + 1) → Fin (T + 1) → α)
    (e : ℕ → Fin (T + 1) → α) (L : ℕ) :
    (viterbi_decode t e L).2.length = L + 1 := by
  show ((backWalk t e L (argmaxIdx (viterbiScores t e L))).reverse).length = L + 1
  rw [List.length_reverse, backWalk_length]

/-- `_viterbi_decode` called on a trimmed emission matrix with `len` rows:
with `len = 0` the initial read `emission[0, :]` raises (`none`). -/
def viterbi_decode_checked (t : Fin (T + 1) → Fin (T + 1) → α)
    (e : ℕ → Fin (T + 1) → α) (len : ℕ) : Option (α × List (Fin (T + 1))) :=
  match len with
  | 0 => none
  | L' + 1 => some (viterbi_decode t e L')

lemma viterbi_decode_checked_eq_none_iff (t : Fin (T + 1) → Fin (T + 1) → α)
    (e : ℕ → Fin (T + 1) → α) (len : ℕ) :
    viterbi_decode_checked t e len = none ↔ len = 0 := by
  cases len <;> simp [viterbi_decode_checked]

/-- The Python `for` loop collecting one `Option` result per batch item:
stops with an error (`none`) at the first failing item. -/
def mapOpt {β γ : Type} (f : β → Option γ) : List β → Option (List γ)
  | [] => some []
  | b :: l =>
    match f b with
    | none => none
    | some c =>
      match mapOpt f l with
      | none => none
      | some cl => some (c :: cl)

lemma mapOpt_eq_some_map {β γ : Type} (f : β → Option γ) (g : β → γ) :
    ∀ l : List β, (∀ b ∈ l, f b = some (g b)) → mapOpt f l = some (l.map g) := by
  intro l
  induction l with
  | nil => intro _; rfl
  | cons b l ih =>
    intro h
    have hb := h b (List.mem_cons_self b l)
    rw [mapOpt, hb]
    dsimp only
    rw [ih fun x hx => h x (List.mem_cons_of_mem b hx)]
    rfl

lemma mapOpt_eq_none_iff {β γ : Type} (f : β → Option γ) :
    ∀ l : List β, (mapOpt f l = none ↔ ∃ b ∈ l, f b = none) := by
  intro l
  induction l with
  | nil => simp [mapOpt]
  | cons b l ih =>
    rw [mapOpt]
    rcases hb : f b with _ | c
    · exact iff_of_true rfl ⟨b, List.mem_cons_self b l, hb⟩
    · dsimp only
      rcases hl : mapOpt f l with _ | cl
      · obtain ⟨x, hx, hfx⟩ := ih.mp hl
        exact iff_of_true rfl ⟨x, List.mem_cons_of_mem b hx, hfx⟩
      · dsimp only
        refine iff_of_false (by simp) ?_
        rintro ⟨x, hx, hfx⟩
        rcases List.mem_cons.mp hx with hxb | hxl
        · subst hxb
          rw [hb] at hfx
          exact absurd hfx (by simp)
        · have h2 := ih.mpr ⟨x, hxl, hfx⟩
          rw [hl] at h2
          exact absurd h2 (by simp)

lemma mapOpt_length {β γ : Type} (f : β → Option γ) :
    ∀ (l : List β) (res : List γ), mapOpt f l = some res → res.length = l.length := by
  intro l
  induction l with
  | nil =>
    intro res h
    rw [mapOpt] at h
    cases h
    rfl
  | cons b l ih =>
    intro res h
    rw [mapOpt] at h
    rcases hb : f b with _ | c
    · rw [hb] at h
      cases h
    · rw [hb] at h
      dsimp only at h
      rcases hl : mapOpt f l with _ | cl
      · rw [hl] at h
        cases h
      · rw [hl] at h
        dsimp only at h
        cases h
        simp [ih cl hl]

/-- Embedding of `CRF.forward(emissions, batch_valid_lens)` in the batched
branch with the default `return_tensor=True`:
`assert len(emissions) == len(batch_valid_lens)` (an `AssertionError` is
`none`); then for each pair the slice `emission[:batch_valid_lens[i], :]`
(Python slicing clamps, yielding `min len Lmax` rows of the `Lmax`-row padded
matrix) is decoded independently and the per-item results are collected in
order (ragged, no re-padding).  The `return_tensor` conversion then reads
`best_paths[0]` to pick the tensor conversion: on an empty batch this read
raises `IndexError` (`none`); on a nonempty batch each path (a Python list)
becomes a tensor, leaving the collected values unchanged. -/
def forward (t : Fin (T + 1) → Fin (T + 1) → α) (Lmax : ℕ)
    (emissions : List (ℕ → Fin (T + 1) → α)) (lens : List ℕ) :
    Option (List (α × List (Fin (T + 1)))) :=
  if emissions.length = lens.length then
    match mapOpt (fun pr => viterbi_decode_checked t pr.1 (min pr.2 Lmax))
        (emissions.zip lens) with
    | none => none
    | some [] => none
    | some (r :: rs) => some (r :: rs)
  else none

/-- Claim C6 (amended): for a nonempty batch with matching batch size and
valid lengths `1 ≤ v ≤ Lmax`, batched decoding returns exactly the
per-sequence unbatched decode on the first `v` rows, and each returned path
has length `v` (ragged output); the empty batch instead fails in the
`return_tensor` conversion. -/
theorem crf_c6 (t : Fin (T + 1) → Fin (T + 1) → α) (Lmax : ℕ)
    (emissions : List (ℕ → Fin (T + 1) → α)) (lens : List ℕ)
    (hne : emissions ≠ [])
    (hlen : emissions.length = lens.length)
    (hv : ∀ v ∈ lens, 1 ≤ v ∧ v ≤ Lmax) :
    forward t Lmax emissions lens =
      some ((emissions.zip lens).map fun pr => viterbi_decode t pr.1 (pr.2 - 1)) ∧
    ∀ pr ∈ emissions.zip lens, (viterbi_decode t pr.1 (pr.2 - 1)).2.length = pr.2 := by
  constructor
  · rw [forward, if_pos hlen]
    have hmap : mapOpt (fun pr => viterbi_decode_checked t pr.1 (min pr.2 Lmax))
        (emissions.zip lens) =
        some ((emissions.zip lens).map fun pr => viterbi_decode t pr.1 (pr.2 - 1)) := by
      apply mapOpt_eq_some_map
      intro pr hpr
      have hmem : pr.2 ∈ lens := (List.of_mem_zip hpr).2
      obtain ⟨h1, h2⟩ := hv pr.2 hmem
      have hmin : min pr.2 Lmax = pr.2 := Nat.min_eq_left h2
      obtain ⟨v', hv'⟩ : ∃ v', pr.2 = v' + 1 := ⟨pr.2 - 1, by omega⟩
      rw [hmin, hv']
      rfl
    rw [hmap]
    obtain ⟨e0, es', rfl⟩ : ∃ e0 es', emissions = e0 :: es' := by
      cases emissions with
      | nil => exact absurd rfl hne
      | cons a l => exact ⟨a, l, rfl⟩
    obtain ⟨v0, ls', rfl⟩ : ∃ v0 ls', lens = v0 :: ls' := by
      cases lens with
      | nil => exact absurd hlen (by simp)
      | cons a l => exact ⟨a, l, rfl⟩
    rfl
  · intro pr hpr
    have hmem : pr.2 ∈ lens := (List.of_mem_zip hpr).2
    obtain ⟨h1, _⟩ := hv pr.2 hmem
    rw [viterbi_decode_path_length]
    omega

/-- Claim C6, counterexample to the claim as stated: the empty batch satisfies
the batch-size and valid-length conditions vacuously, yet batched decoding (at
the default `return_tensor=True`) computes no result — the `best_paths[0]`
read in the conversion block raises `IndexError` instead of returning the
empty result lists. -/
theorem crf_c6_counterexample :
    forward (fun _ _ : Fin 1 => (0 : ℤ)) 1 ([] : List (ℕ → Fin 1 → ℤ))
      ([] : List ℕ) = none := by
  decide

/-- Claim C8 (amended): batched decoding fails iff the batch sizes disagree,
the batch is empty (the `return_tensor` conversion reads `best_paths[0]`), or
some effective trimmed length `min v Lmax` is zero; a `valid_length` above
`Lmax` is silently clamped by the slice and decoding succeeds. -/
theorem crf_c8 (t : Fin (T + 1) → Fin (T + 1) → α) (Lmax : ℕ)
    (emissions : List (ℕ → Fin (T + 1) → α)) (lens : List ℕ) :
    forward t Lmax emissions lens = none ↔
      emissions.length ≠ lens.length ∨ emissions = [] ∨
        ∃ pr ∈ emissions.zip lens, min pr.2 Lmax = 0 := by
  by_cases hlen : emissions.length = lens.length
  · rw [forward, if_pos hlen]
    rcases hmap : mapOpt (fun pr => viterbi_decode_checked t pr.1 (min pr.2 Lmax))
        (emissions.zip lens) with _ | results
    · rw [hmap]
      refine iff_of_true rfl ?_
      obtain ⟨pr, hpr, hf⟩ := (mapOpt_eq_none_iff _ _).mp hmap
      exact Or.inr (Or.inr ⟨pr, hpr, (viterbi_decode_checked_eq_none_iff t pr.1 _).mp hf⟩)
    · rcases results with _ | ⟨r, rs⟩
      · rw [hmap]
        refine iff_of_true rfl ?_
        have hzlen : (emissions.zip lens).length = 0 := (mapOpt_length _ _ _ hmap).symm
        rw [List.length_zip, ← hlen, Nat.min_self] at hzlen
        exact Or.inr (Or.inl (List.length_eq_zero.mp hzlen))
      · rw [hmap]
        refine iff_of_false (fun h => Option.noConfusion h) ?_
        rintro (h | h | ⟨pr, hpr, hmin⟩)
        · exact h hlen
        · subst h
          have hls : lens = [] := List.length_eq_zero.mp hlen.symm
          subst hls
          have h0 : mapOpt (fun pr => viterbi_decode_checked t pr.1 (min pr.2 Lmax))
              (([] : List (ℕ → Fin (T + 1) → α)).zip ([] : List ℕ)) =
              some ([] : List (α × List (Fin (T + 1)))) := rfl
          rw [h0] at hmap
          simp at hmap
        · have hnone := (mapOpt_eq_none_iff
              (fun pr : (ℕ → Fin (T + 1) → α) × ℕ => viterbi_decode_checked t pr.1 (min pr.2 Lmax))
              (emissions.zip lens)).mpr
            ⟨pr, hpr, (viterbi_decode_checked_eq_none_iff t pr.1 _).mpr hmin⟩
          rw [hmap] at hnone
          cases hnone
  · rw [forward, if_neg hlen]
    exact iff_of_true rfl (Or.inl hlen)

/-- Claim C8, counterexample to the claim as stated: a `valid_length` of `5`
strictly above the padded length `Lmax = 1` is not rejected — the decode
succeeds on the clamped one-row matrix instead of raising a validation
error. -/
theorem crf_c8_counterexample :
    forward (fun _ _ : Fin 1 => (0 : ℤ)) 1 [fun _ _ => (0 : ℤ)] [5] =
      some [((0 : ℤ), [(0 : Fin 1)])] := by decide

/-- Claim C7, code behaviour at the failing input: a tag index outside
`[0, T)` (here `-1` with `tag_size = 2`, emission `[[5, 7]]`) is not rejected;
`_score_real_path` silently wraps it and returns `emission[0, 1] = 7` instead
of raising a validation error. -/
theorem crf_c7_failing_input :
    score_real_path (fun _ _ : Fin 2 => (0 : ℤ)) 1
      (fun _ j => if j = 1 then 7 else 5) [(-1 : ℤ)] = some 7 := by
  decide

/-- Claim C10: a tag list whose entries all lie in `[-(T+1), T+1)` — negative
entries included — is accepted without error: each entry is read modulo the
tag count (`-1` resolves to the last tag, index `T`), and the corresponding
path score is returned. -/
theorem crf_c10 (t : Fin (T + 1) → Fin (T + 1) → α) (e : ℕ → Fin (T + 1) → α)
    (L : ℕ) (tags : List ℤ) (hlen : tags.length = L + 1)
    (hrange : ∀ z ∈ tags, -((T : ℤ) + 1) ≤ z ∧ z < (T : ℤ) + 1) :
    score_real_path t (L + 1) e tags =
      some (pathScoreUpTo t e (fun n => wrapIdx T (tags.getD n 0)) L) ∧
    wrapIdx T (-1) = ⟨T, Nat.lt_succ_self T⟩ := by
  refine ⟨?_, wrapIdx_neg_one T⟩
  apply score_real_path_valid
  intro n hn
  have hlt : n < tags.length := by omega
  have h1 : tags[n]? = some tags[n] := List.getElem?_eq_getElem hlt
  have h2 : tags.getD n 0 = tags[n] := by
    rw [List.getD_eq_getElem?_getD, h1]
    rfl
  refine ⟨tags.getD n 0, by rw [h2]; exact h1, ?_⟩
  have hmem : tags.getD n 0 ∈ tags := by
    rw [h2]
    exact List.getElem_mem hlt
  obtain ⟨hlo, hhi⟩ := hrange _ hmem
  exact pyIndex_eq_wrap T _ hlo hhi

/-- Witness for C10 at `tag_size = 2`, `L = 1`, `tags = [-1]`,
`emission = [[5, 7]]`. -/
theorem crf_c10_witness :
    (([(-1 : ℤ)] : List ℤ).length = 0 + 1 ∧
      (∀ z ∈ ([(-1 : ℤ)] : List ℤ), -(((1 : ℕ) : ℤ) + 1) ≤ z ∧ z < ((1 : ℕ) : ℤ) + 1)) ∧
    (score_real_path (fun _ _ : Fin 2 => (0 : ℤ)) (0 + 1)
        (fun _ j => if j = 1 then 7 else 5) [(-1 : ℤ)] =
      some (pathScoreUpTo (fun _ _ : Fin 2 => (0 : ℤ))
        (fun _ j => if j = 1 then 7 else 5)
        (fun n => wrapIdx 1 (([(-1 : ℤ)] : List ℤ).getD n 0)) 0) ∧
      wrapIdx 1 (-1) = ⟨1, Nat.lt_succ_self 1⟩) :=
  ⟨⟨rfl, by decide⟩,
    crf_c10 (fun _ _ : Fin 2 => (0 : ℤ)) (fun _ j => if j = 1 then 7 else 5) 0
      [(-1 : ℤ)] rfl (by decide)⟩

/-! ## The partition function and the loss (real-valued, exact arithmetic) -/

/-- The `pre_score` vector of `CRF._score_all_paths` after processing rows
`0..i`: `pre_score = emission[0]`, then
`cur_score[k][j] = pre_score[k] + cur_emit[j] + transition[k][j]` and
`pre_score = torch.log(torch.sum(torch.exp(cur_score), dim=0))` — the naive
`log (sum (exp ...))` exactly as written in the source (no max subtraction). -/
noncomputable def alphaZ (t : Fin (T + 1) → Fin (T + 1) → ℝ)
    (e : ℕ → Fin (T + 1) → ℝ) : ℕ → Fin (T + 1) → ℝ
  | 0 => e 0
  | i + 1 => fun j => Real.log (∑ k, Real.exp (alphaZ t e i k + e (i + 1) j + t k j))

/-- Embedding of `CRF._score_all_paths(emission)` for an emission matrix with
`L` rows: the loop above followed by
`pre_score = torch.log(torch.sum(torch.exp(pre_score)))`; with `L = 0` the
initial read `emission[0]` raises (`none`). -/
noncomputable def score_all_paths (t : Fin (T + 1) → Fin (T + 1) → ℝ) (L : ℕ)
    (e : ℕ → Fin (T + 1) → ℝ) : Option ℝ :=
  match L with
  | 0 => none
  | L' + 1 => some (Real.log (∑ j, Real.exp (alphaZ t e L' j)))

/-- Embedding of `CRF.loss_nll_crf(emissions, tags)`:
`_score_all_paths(emissions) - _score_real_path(emissions, tags)`. -/
noncomputable def loss_nll_crf (t : Fin (T + 1) → Fin (T + 1) → ℝ) (L : ℕ)
    (e : ℕ → Fin (T + 1) → ℝ) (tags : List ℤ) : Option ℝ :=
  match score_all_paths t L e, score_real_path t L e tags with
  | some a, some r => some (a - r)
  | _, _ => none

/-- A length-`n` tag prefix extended with tag `j` from position `n` onwards. -/
def extendPath {n : ℕ} (q : Fin n → Fin (T + 1)) (j : Fin (T + 1)) : ℕ → Fin (T + 1) :=
  fun m => if h : m < n then q ⟨m, h⟩ else j

lemma sum_snoc_decomp {β : Type} [Fintype β] [DecidableEq β] (n : ℕ)
    (g : (Fin (n + 1) → β) → ℝ) :
    (∑ q : Fin (n + 1) → β, g q) = ∑ k : β, ∑ q : Fin n → β, g (Fin.snoc q k) := by
  rw [← Equiv.sum_comp (Fin.snocEquiv fun _ => β) g, Fintype.sum_prod_type]
  apply Finset.sum_congr rfl
  intro k _
  apply Finset.sum_congr rfl
  intro q _
  rfl

lemma extendPath_snoc_last {i : ℕ} (q : Fin i → Fin (T + 1)) (k j : Fin (T + 1)) :
    extendPath (Fin.snoc q k) j i = k := by
  rw [extendPath]
  rw [dif_pos (Nat.lt_succ_self i)]
  have h : (⟨i, Nat.lt_succ_self i⟩ : Fin (i + 1)) = Fin.last i := rfl
  rw [h, Fin.snoc_last]

lemma extendPath_snoc_agree {i : ℕ} (q : Fin i → Fin (T + 1)) (k j : Fin (T + 1)) :
    ∀ m, m ≤ i → extendPath (Fin.snoc q k) j m = extendPath q k m := by
  intro m hm
  rcases lt_or_eq_of_le hm with hlt | heq
  · rw [extendPath, extendPath, dif_pos (Nat.lt_succ_of_lt hlt), dif_pos hlt]
    have h : (⟨m, Nat.lt_succ_of_lt hlt⟩ : Fin (i + 1)) = (⟨m, hlt⟩ : Fin i).castSucc := rfl
    rw [h, Fin.snoc_castSucc]
  · subst heq
    rw [extendPath_snoc_last]
    rw [extendPath, dif_neg (lt_irrefl m)]

/-- `exp` of the forward vector equals the sum of exponentiated path scores
over all paths ending at the given tag. -/
lemma exp_alphaZ (t : Fin (T + 1) → Fin (T + 1) → ℝ) (e : ℕ → Fin (T + 1) → ℝ) :
    ∀ (i : ℕ) (j : Fin (T + 1)),
      Real.exp (alphaZ t e i j) =
        ∑ q : Fin i → Fin (T + 1), Real.exp (pathScoreUpTo t e (extendPath q j) i) := by
  intro i
  induction i with
  | zero =>
    intro j
    have hval : ∀ q : Fin 0 → Fin (T + 1),
        pathScoreUpTo t e (extendPath q j) 0 = e 0 j := by
      intro q
      rw [pathScoreUpTo, extendPath]
      rw [dif_neg (lt_irrefl 0)]
    simp only [hval]
    rw [Finset.sum_const, Finset.card_univ]
    have hcard : Fintype.card (Fin 0 → Fin (T + 1)) = 1 := by
      rw [Fintype.card_fun]
      simp
    rw [hcard, one_smul]
    rfl
  | succ i ih =>
    intro j
    have hpos : 0 < ∑ k, Real.exp (alphaZ t e i k + e (i + 1) j + t k j) :=
      Finset.sum_pos (fun k _ => Real.exp_pos _) Finset.univ_nonempty
    rw [alphaZ, Real.exp_log hpos,
      sum_snoc_decomp i (fun q => Real.exp (pathScoreUpTo t e (extendPath q j) (i + 1)))]
    apply Finset.sum_congr rfl
    intro k _
    rw [add_assoc, Real.exp_add, ih k, Finset.sum_mul]
    apply Finset.sum_congr rfl
    intro q _
    rw [← Real.exp_add]
    congr 1
    have hstep : pathScoreUpTo t e (extendPath (Fin.snoc q k) j) (i + 1) =
        pathScoreUpTo t e (extendPath (Fin.snoc q k) j) i +
          e (i + 1) (extendPath (Fin.snoc q k) j (i + 1)) +
          t (extendPath (Fin.snoc q k) j i) (extendPath (Fin.snoc q k) j (i + 1)) := rfl
    have hlastpos : extendPath (Fin.snoc q k) j (i + 1) = j := by
      rw [extendPath, dif_neg (lt_irrefl (i + 1))]
    have hcongr : pathScoreUpTo t e (extendPath (Fin.snoc q k) j) i =
        pathScoreUpTo t e (extendPath q k) i :=
      pathScoreUpTo_congr t e _ _ i (extendPath_snoc_agree q k j)
    rw [hstep, hlastpos, extendPath_snoc_last, hcongr]
    ring

lemma finPathScore_snoc (t : Fin (T + 1) → Fin (T + 1) → ℝ) (e : ℕ → Fin (T + 1) → ℝ)
    (L : ℕ) (q : Fin L → Fin (T + 1)) (j : Fin (T + 1)) :
    finPathScore t e L (Fin.snoc q j) = pathScoreUpTo t e (extendPath q j) L := by
  rw [finPathScore]
  apply pathScoreUpTo_congr
  intro m hm
  have hmk : (⟨min m L, Nat.lt_succ_of_le (Nat.min_le_right m L)⟩ : Fin (L + 1)) =
      ⟨m, Nat.lt_succ_of_le hm⟩ := Fin.ext (by simp [Nat.min_eq_left hm])
  rw [hmk]
  rcases lt_or_eq_of_le hm with hlt | heq
  · rw [extendPath, dif_pos hlt]
    have h : (⟨m, Nat.lt_succ_of_le hm⟩ : Fin (L + 1)) = (⟨m, hlt⟩ : Fin L).castSucc := rfl
    rw [h, Fin.snoc_castSucc]
  · subst heq
    rw [extendPath, dif_neg (lt_irrefl m)]
    have h : (⟨m, Nat.lt_succ_of_le hm⟩ : Fin (m + 1)) = Fin.last m := rfl
    rw [h, Fin.snoc_last]

/-- The forward algorithm computes the log of the brute-force sum of
exponentiated path scores. -/
lemma score_all_paths_brute (t : Fin (T + 1) → Fin (T + 1) → ℝ)
    (e : ℕ → Fin (T + 1) → ℝ) (L : ℕ) :
    score_all_paths t (L + 1) e =
      some (Real.log
        (∑ p : Fin (L + 1) → Fin (T + 1), Real.exp (finPathScore t e L p))) := by
  rw [score_all_paths]
  congr 2
  rw [sum_snoc_decomp L (fun p => Real.exp (finPathScore t e L p))]
  apply Finset.sum_congr rfl
  intro j _
  rw [exp_alphaZ t e L j]
  apply Finset.sum_congr rfl
  intro q _
  rw [finPathScore_snoc]

/-- Claim C2: `_score_all_paths` on an `(L+1)`-row emission matrix equals the
log-sum-exp of all `(T+1)^(L+1)` brute-force path scores (exact arithmetic),
and its vector recurrence is the forward recurrence
`alpha[i][j] = logsumexp_k(alpha[i-1][k] + transition[k,j]) + emission[i,j]`. -/
theorem crf_c2 (t : Fin (T + 1) → Fin (T + 1) → ℝ) (e : ℕ → Fin (T + 1) → ℝ)
    (L : ℕ) :
    score_all_paths t (L + 1) e =
      some (Real.log
        (∑ p : Fin (L + 1) → Fin (T + 1), Real.exp (finPathScore t e L p))) ∧
    ∀ (i : ℕ) (j : Fin (T + 1)),
      alphaZ t e (i + 1) j =
        Real.log (∑ k, Real.exp (alphaZ t e i k + t k j)) + e (i + 1) j := by
  refine ⟨score_all_paths_brute t e L, ?_⟩
  intro i j
  have hsplit : ∀ k, alphaZ t e i k + e (i + 1) j + t k j =
      alphaZ t e i k + t k j + e (i + 1) j := fun k => by ring
  have hpos : 0 < ∑ k, Real.exp (alphaZ t e i k + t k j) :=
    Finset.sum_pos (fun k _ => Real.exp_pos _) Finset.univ_nonempty
  have hmul : ∀ k, Real.exp (alphaZ t e i k + t k j + e (i + 1) j) =
      Real.exp (alphaZ t e i k + t k j) * Real.exp (e (i + 1) j) := fun k => Real.exp_add _ _
  rw [alphaZ]
  simp only [hsplit, hmul]
  rw [← Finset.sum_mul, Real.log_mul hpos.ne' (Real.exp_pos _).ne', Real.log_exp]

/-- Claim C4: for every valid `(emission, tags)` pair the loss equals
`score_all_paths - score_real_path`, and that value is nonnegative (the log
partition dominates every single path score). -/
theorem crf_c4 (t : Fin (T + 1) → Fin (T + 1) → ℝ) (e : ℕ → Fin (T + 1) → ℝ)
    (L : ℕ) (p : Fin (L + 1) → Fin (T + 1)) :
    loss_nll_crf t (L + 1) e (encodeTags p) =
      some (Real.log
          (∑ q : Fin (L + 1) → Fin (T + 1), Real.exp (finPathScore t e L q)) -
        finPathScore t e L p) ∧
    0 ≤ Real.log
          (∑ q : Fin (L + 1) → Fin (T + 1), Real.exp (finPathScore t e L q)) -
        finPathScore t e L p := by
  have hpos : 0 < ∑ q : Fin (L + 1) → Fin (T + 1), Real.exp (finPathScore t e L q) :=
    Finset.sum_pos (fun q _ => Real.exp_pos _) Finset.univ_nonempty
  constructor
  · rw [loss_nll_crf, score_all_paths_brute, score_real_path_encode]
  · rw [sub_nonneg, Real.le_log_iff_exp_le hpos]
    exact Finset.single_le_sum (fun q _ => (Real.exp_pos _).le) (Finset.mem_univ p)

/-! ## Abstract float64 overflow model for the partition function (C3) -/

/-- The `float64` overflow threshold for `exp`: `exp x` overflows to infinity
for arguments above ≈ 709.78, modelled here as failure above `709`. -/
def EXPMAX : ℝ := 709

/-- The `pre_score` rows of `_score_all_paths` under the overflow model: the
source's `torch.log(torch.sum(torch.exp(cur_score), dim=0))` exponentiates the
raw scores with no max subtraction, so the row fails (overflows) as soon as
some entry of `cur_score` exceeds `EXPMAX`. -/
noncomputable def alphaZG (t : Fin (T + 1) → Fin (T + 1) → ℝ)
    (e : ℕ → Fin (T + 1) → ℝ) : ℕ → Option (Fin (T + 1) → ℝ)
  | 0 => some (e 0)
  | i + 1 =>
    match alphaZG t e i with
    | none => none
    | some a =>
      if ∀ j k, a k + e (i + 1) j + t k j ≤ EXPMAX then
        some fun j => Real.log (∑ k, Real.exp (a k + e (i + 1) j + t k j))
      else none

/-- `_score_all_paths` under the overflow model: the final
`torch.log(torch.sum(torch.exp(pre_score)))` likewise exponentiates raw
scores. -/
noncomputable def score_all_paths_guarded (t : Fin (T + 1) → Fin (T + 1) → ℝ)
    (L : ℕ) (e : ℕ → Fin (T + 1) → ℝ) : Option ℝ :=
  match L with
  | 0 => none
  | L' + 1 =>
    match alphaZG t e L' with
    | none => none
    | some a =>
      if ∀ j, a j ≤ EXPMAX then some (Real.log (∑ j, Real.exp (a j))) else none

/-- Modelled from the spec: the numerically stable log-sum-exp, which subtracts
the running maximum before exponentiating, under the same overflow model.  This
operation is absent from the source (`_score_all_paths` uses the naive
`log (sum (exp ...))`); it is built here from the spec's words to compare. -/
noncomputable def gLogSumExpStable (f : Fin (T + 1) → ℝ) : Option ℝ :=
  if ∀ k, f k - vmax f ≤ EXPMAX then
    some (vmax f + Real.log (∑ k, Real.exp (f k - vmax f)))
  else none

/-- Claim C3, code behaviour: the partition function uses the naive
exponentiate-sum-log, so under the float64 overflow model a single emission
score of `1000` already overflows (`none`), while the spec's max-subtracted
log-sum-exp never overflows and computes the same exact value. -/
theorem crf_c3_overflow :
    score_all_paths_guarded (fun _ _ : Fin 1 => (0 : ℝ)) 1 (fun _ _ => 1000) = none ∧
    ∀ (T' : ℕ) (f : Fin (T' + 1) → ℝ),
      gLogSumExpStable f = some (Real.log (∑ k, Real.exp (f k))) := by
  constructor
  · rw [score_all_paths_guarded, alphaZG]
    dsimp only
    rw [if_neg]
    intro hcontra
    have h := hcontra 0
    rw [EXPMAX] at h
    norm_num at h
  · intro T' f
    have hguard : ∀ k : Fin (T' + 1), f k - vmax f ≤ EXPMAX := by
      intro k
      have h1 : f k - vmax f ≤ 0 := sub_nonpos.mpr (le_vmax f k)
      have h2 : (0 : ℝ) ≤ EXPMAX := by rw [EXPMAX]; norm_num
      linarith
    rw [gLogSumExpStable, if_pos hguard]
    congr 1
    have hsum : (∑ k, Real.exp (f k - vmax f)) =
        (∑ k, Real.exp (f k)) / Real.exp (vmax f) := by
      rw [Finset.sum_div]
      apply Finset.sum_congr rfl
      intro k _
      rw [Real.exp_sub]
    have hpos : 0 < ∑ k : Fin (T' + 1), Real.exp (f k) :=
      Finset.sum_pos (fun k _ => Real.exp_pos _) Finset.univ_nonempty
    rw [hsum, Real.log_div hpos.ne' (Real.exp_pos _).ne', Real.log_exp]
    ring

/-- Witness for C6: one-sequence batch, `tag_size = 1`, `Lmax = 2`,
`valid_lengths = [1]`. -/
theorem crf_c6_witness :
    (([fun _ _ => (0 : ℤ)] : List (ℕ → Fin 1 → ℤ)) ≠ [] ∧
      ([fun _ _ => (0 : ℤ)] : List (ℕ → Fin 1 → ℤ)).length = ([1] : List ℕ).length ∧
      (∀ v ∈ ([1] : List ℕ), 1 ≤ v ∧ v ≤ 2)) ∧
    (forward (fun _ _ : Fin 1 => (0 : ℤ)) 2 [fun _ _ => (0 : ℤ)] [1] =
        some ((([fun _ _ => (0 : ℤ)] : List (ℕ → Fin 1 → ℤ)).zip [1]).map fun pr =>
          viterbi_decode (fun _ _ : Fin 1 => (0 : ℤ)) pr.1 (pr.2 - 1)) ∧
      ∀ pr ∈ ([fun _ _ => (0 : ℤ)] : List (ℕ → Fin 1 → ℤ)).zip [1],
        (viterbi_decode (fun _ _ : Fin 1 => (0 : ℤ)) pr.1 (pr.2 - 1)).2.length = pr.2) :=
  ⟨⟨List.cons_ne_nil _ _, rfl, by decide⟩,
    crf_c6 (fun _ _ => 0) 2 [fun _ _ => 0] [1] (List.cons_ne_nil _ _) rfl (by decide)⟩

/-- Witness for C9: `tag_size = 1`, `L = 1`, all-zero inputs. -/
theorem crf_c9_witness :
    ((∀ k j : Fin 1, (fun _ _ : Fin 1 => (0 : ℤ)) k j = (fun _ _ : Fin 1 => (0 : ℤ)) k j) ∧
      (∀ (i : ℕ) (j : Fin 1),
        (fun (_ : ℕ) (_ : Fin 1) => (0 : ℤ)) i j = (fun (_ : ℕ) (_ : Fin 1) => (0 : ℤ)) i j)) ∧
    (viterbi_decode (fun _ _ : Fin 1 => (0 : ℤ)) (fun _ _ => 0) 0 =
        viterbi_decode (fun _ _ : Fin 1 => (0 : ℤ)) (fun _ _ => 0) 0 ∧
      ∀ f : Fin 1 → ℤ, f (argmaxIdx f) = vmax f ∧ ∀ k, f k = vmax f → argmaxIdx f ≤ k) :=
  ⟨⟨fun _ _ => rfl, fun _ _ => rfl⟩,
    crf_c9 (fun _ _ => 0) (fun _ _ => 0) (fun _ _ => 0) (fun _ _ => 0) 0
      (fun _ _ => rfl) (fun _ _ => rfl)⟩

/-! ## Concrete sanity checks (spec §8, Scenarios A and B) -/

/-- Scenario A: `T = 2`, `L = 3`, zero emission, `transition = [[0,1],[1,0]]`:
`best_score = 2` and the decoded path alternates tags (here `[0,1,0]` under the
lowest-index tie-break). -/
example :
    viterbi_decode (fun i j : Fin 2 => if i = j then (0 : ℤ) else 1) (fun _ _ => 0) 2 =
      (2, [0, 1, 0]) := by
  decide

/-- Scenario B: `T = 1`, `L = 3`, `emission[i][0] = i`, self-loop score `3`:
`best_path = [0,0,0]` and `best_score = (0 + 1 + 2) + 2 * 3 = 9`. -/
example :
    viterbi_decode (fun _ _ : Fin 1 => (3 : ℤ)) (fun i _ => (i : ℤ)) 2 =
      (9, [0, 0, 0]) := by
  decide

/-- The batched decode agrees with the per-sequence decode on a concrete ragged
batch (`valid_lengths = [1, 2]`, `Lmax = 2`). -/
example :
    forward (fun i j : Fin 2 => if i = j then (0 : ℤ) else 1) 2
      [fun _ _ => 0, fun _ _ => 0] [1, 2] =
      some [((0 : ℤ), [0]), ((1 : ℤ), [1, 0])] := by
  decide

end CRF
